import Mathlib

/-!
# Verification of the swc `SourceMap` (crates/swc_common/src/source_map.rs)

A shallow embedding of the `SourceMap` interner and its lookup, span and
source-map-emission operations, together with proofs about the claims of the
specification.

Conventions of the embedding:

* `BytePos` and `CharPos` are embedded as `Nat`.  The position allocator uses a
  `usize` counter in the source; 32-bit truncation of `SmallPos::from_usize` is
  outside the source files under verification, and the spec declares overflow
  out of scope ("callers are expected to stay well below 4 GiB"), so positions
  are unbounded naturals here.
* Source text is a list of Unicode scalar values (`List Nat`); UTF-8/UTF-16
  sizes are computed from the scalar value.  Rust byte-slicing of `&str` is
  embedded by `utf8Drop`/`utf8Take`, which agree with Rust slicing at character
  boundaries (the only places the verified claims exercise them).
* Rust `panic!`/`unwrap()` on `Result` is embedded by propagating the error in
  `Except`; functions whose Rust signature cannot fail but which contain an
  `unwrap` of a lookup therefore return `Except SourceMapLookupError _`.
* `Loc.col_display` and the `non_narrow_chars` analysis table are omitted:
  no claim mentions display columns, and the Unicode East-Asian-Width tables
  they depend on are outside the source under verification.
-/

namespace Swc

/-- UTF-8 encoded size in bytes of a Unicode scalar value. -/
def utf8Size (c : Nat) : Nat :=
  if c < 0x80 then 1 else if c < 0x800 then 2 else if c < 0x10000 then 3 else 4

/-- Number of UTF-16 code units of a Unicode scalar value. -/
def utf16Size (c : Nat) : Nat :=
  if c < 0x10000 then 1 else 2

/-- Byte length of a source text (sum of the UTF-8 sizes of its scalars). -/
def byteLen (l : List Nat) : Nat := (l.map utf8Size).sum

/-- A source string as a list of Unicode scalar values. -/
def str (s : String) : List Nat := s.toList.map Char.toNat

/-- Modelled from the spec: `MultiByteChar {pos: BytePos, bytes: 2..=4}` with a
precomputed UTF-16 code-unit count (`swc_common::syntax_pos`, not under
`src/`). -/
structure MultiByteChar where
  pos : Nat
  bytes : Nat
deriving DecidableEq, Repr

/-- Modelled from the spec: the per-entry difference between UTF-8 byte length
and UTF-16 code-unit length of a multibyte char — "characters requiring a
surrogate pair contribute `bytes − 2`", all others `bytes − 1` (§4.5).  This is
`MultiByteChar::byte_to_char_diff`, which is declared outside `src/`. -/
def MultiByteChar.byteToCharDiff (m : MultiByteChar) : Nat :=
  if m.bytes = 4 then 2 else m.bytes - 1

/-- Sum of `byteToCharDiff` over a list of multibyte chars. -/
def sumDiff (l : List MultiByteChar) : Nat := (l.map MultiByteChar.byteToCharDiff).sum

/-- Modelled from the spec (§4.3, file analysis, `swc_common::syntax_pos`):
single scan of the source accumulating, for a current absolute position,
the line starts contributed by each `\n` and the multibyte-char table.
Returns `(line starts after newlines, multibyte_chars)`. -/
def analyzeRec : List Nat → Nat → (List Nat × List MultiByteChar)
  | [], _ => ([], [])
  | c :: rest, pos =>
    let r := analyzeRec rest (pos + utf8Size c)
    ((if c = 10 then (pos + utf8Size c) :: r.1 else r.1),
     (if 2 ≤ utf8Size c then ⟨pos, utf8Size c⟩ :: r.2 else r.2))

/-- Memoized per-file analysis tables (display-width table omitted, see
header). -/
structure Analysis where
  lines : List Nat
  multibyte_chars : List MultiByteChar
deriving DecidableEq, Repr

/-- Modelled from the spec (§4.3): the initial `line_starts` entry is always
`start_pos`; each `\n` contributes the position of the byte after it. -/
def analyzeSource (src : List Nat) (start : Nat) : Analysis :=
  let r := analyzeRec src start
  ⟨start :: r.1, r.2⟩

/-- Modelled from the spec (§3): tagged file names.  `Real` paths are lists of
path components. -/
inductive FileName where
  | real (path : List String)
  | anon
  | custom (s : String)
  | url (s : String)
  | internal (s : String)
deriving DecidableEq, Repr

/-- Path-prefix substitution rules (`FilePathMapping`). -/
structure FilePathMapping where
  mapping : List (List String × List String)
deriving Repr

def FilePathMapping.empty : FilePathMapping := ⟨[]⟩

/-- The `Path::strip_prefix`: remove a leading component-wise path prefix. -/
def stripPathPrefix (pre p : List String) : Option (List String) :=
  if pre.isPrefixOf p then some (p.drop pre.length) else none

/-- Iterate remapping rules from last to first, replacing the first matching
prefix (`FilePathMapping::map_prefix`). -/
def mapPrefixGo : List (List String × List String) → List String → (List String × Bool)
  | [], path => (path, false)
  | (f, t) :: rest, path =>
    match stripPathPrefix f path with
    | some tail => (t ++ tail, true)
    | none => mapPrefixGo rest path

def FilePathMapping.mapPrefix (m : FilePathMapping) (path : List String) :
    (List String × Bool) :=
  mapPrefixGo m.mapping.reverse path

/-- A registered source file (`SourceFile`, `swc_common::syntax_pos`; the
fields are those used by `source_map.rs`). -/
structure SourceFile where
  name : FileName
  name_was_remapped : Bool
  unmapped_path : FileName
  src : List Nat
  start_pos : Nat
  end_pos : Nat
deriving DecidableEq, Repr

/-- Modelled from the spec (§3): `SourceFile::new` records the text and sets
`end_pos = start_pos + len(src)`; analysis is a pure function of the text, so
the lazy cache is embedded by recomputation. -/
def SourceFile.new (name : FileName) (was_remapped : Bool) (unmapped : FileName)
    (src : List Nat) (start : Nat) : SourceFile :=
  ⟨name, was_remapped, unmapped, src, start, start + byteLen src⟩

def SourceFile.analyze (f : SourceFile) : Analysis :=
  analyzeSource f.src f.start_pos

/-- Modelled from the spec (§4.4 step 2 and the comments of
`SourceMap::lookup_line` in `source_map.rs`): the zero-based index of the
greatest `line_starts` entry `≤ pos`; no line number for an empty file. -/
def SourceFile.lookupLine (f : SourceFile) (pos : Nat) : Option Nat :=
  if f.src.isEmpty then none
  else if pos < f.start_pos then none
  else some ((f.analyze.lines.takeWhile (fun s => decide (s ≤ pos))).length - 1)

/-- The `StableSourceFileId::new` hashes `{name, name_was_remapped, unmapped_path}`
with a 128-bit stable hasher; the hash is embedded by the hashed tuple itself
(the spec guarantees it is a pure function of these inputs). -/
structure StableSourceFileId where
  name : FileName
  was_remapped : Bool
  unmapped_path : FileName
deriving DecidableEq, Repr

def StableSourceFileId.new (f : SourceFile) : StableSourceFileId :=
  ⟨f.name, f.name_was_remapped, f.unmapped_path⟩

/-- Insert into the `stable_id → file` index with overwrite semantics
(`FxHashMap::insert`). -/
def idxInsert (m : List (StableSourceFileId × SourceFile))
    (k : StableSourceFileId) (v : SourceFile) :
    List (StableSourceFileId × SourceFile) :=
  (k, v) :: m.filter (fun e => e.1 ≠ k)

/-- Lookup in the `stable_id → file` index (`FxHashMap::get`). -/
def idxGet (m : List (StableSourceFileId × SourceFile)) (k : StableSourceFileId) :
    Option SourceFile :=
  (m.find? (fun e => e.1 == k)).map (fun e => e.2)

/-- The `SourceMap` state: the file vector, the stable-id index, the atomic
`start_pos` counter and the path-remapping table. -/
structure SourceMap where
  source_files : List SourceFile
  stable_id_to_source_file : List (StableSourceFileId × SourceFile)
  start_pos : Nat
  path_mapping : FilePathMapping

/-- The `SourceMap::new`: empty file table, counter starting at 1 (position 0 is
reserved for "dummy"). -/
def SourceMap.new (pm : FilePathMapping) : SourceMap := ⟨[], [], 1, pm⟩

/-- The `remove_bom`: drop a leading U+FEFF. -/
def removeBom (src : List Nat) : List Nat :=
  match src with
  | 0xFEFF :: rest => rest
  | _ => src

/-- The `SourceMap::new_source_file_impl`: strip the BOM, remember the unmapped
path, remap `Real` names, reserve `len + 1` positions at the counter
(`next_start_pos`), construct the file and publish it into the file vector and
the stable-id index. -/
def SourceMap.newSourceFile (sm : SourceMap) (filename : FileName)
    (src0 : List Nat) : SourceMap × SourceFile :=
  let src := removeBom src0
  let unmapped_path := filename
  let mapped :=
    match filename with
    | .real p =>
      let r := sm.path_mapping.mapPrefix p
      (FileName.real r.1, r.2)
    | f => (f, false)
  let start := sm.start_pos
  let source_file := SourceFile.new mapped.1 mapped.2 unmapped_path src start
  ({ sm with
      source_files := sm.source_files ++ [source_file]
      stable_id_to_source_file :=
        idxInsert sm.stable_id_to_source_file (StableSourceFileId.new source_file)
          source_file
      start_pos := sm.start_pos + byteLen src + 1 },
   source_file)

/-- The `SourceMap::source_file_by_stable_id`. -/
def SourceMap.sourceFileByStableId (sm : SourceMap) (id : StableSourceFileId) :
    Option SourceFile :=
  idxGet sm.stable_id_to_source_file id

/-- Register a whole sequence of files. -/
def SourceMap.registerAll (sm : SourceMap) (regs : List (FileName × List Nat)) :
    SourceMap :=
  regs.foldl (fun s r => (s.newSourceFile r.1 r.2).1) sm

-- ---------------------------------------------------------------------------
-- Spans and positions
-- ---------------------------------------------------------------------------

/-- Modelled from the spec (§3): a span of absolute byte positions.  The
hygiene context plays no part in any code under verification and is omitted. -/
structure Span where
  lo : Nat
  hi : Nat
deriving DecidableEq, Repr

/-- The `BytePos::is_dummy`: position 0 is the dummy sentinel. -/
def bytePosIsDummy (p : Nat) : Bool := p == 0

/-- The `u32::MAX`, the "source boundary" marker position of the emitter. -/
def u32Max : Nat := 4294967295

/-- Modelled from the spec (§6): the reserved high band of `BytePos` values
addressing synthetic comment anchors; the emitter must skip them.  The exact
threshold is immaterial to the claims; the band excludes `u32::MAX`, which the
emitter treats separately as a boundary marker (§4.7 step 6). -/
def isReservedForComments (p : Nat) : Bool :=
  decide (0xC0000000 ≤ p) && p != u32Max

/-- Modelled from the spec: the dummy span has both endpoints dummy. -/
def Span.isDummy (s : Span) : Bool := s.lo == 0 && s.hi == 0

/-- Modelled from the spec / the doc comment of `merge_spans`: `Span::to`
returns a span that would enclose both spans ("a union of the lhs and rhs
span", crossing any gap between them). -/
def Span.to (s e : Span) : Span := ⟨min s.lo e.lo, max s.hi e.hi⟩

def Span.withLo (s : Span) (lo : Nat) : Span := ⟨lo, s.hi⟩

def Span.withHi (s : Span) (hi : Nat) : Span := ⟨s.lo, hi⟩

-- ---------------------------------------------------------------------------
-- File lookup (binary search over the file vector)
-- ---------------------------------------------------------------------------

inductive SourceMapLookupError where
  | NoFileFor (pos : Nat)
deriving DecidableEq, Repr

/-- A default `SourceFile` used only to totalize the out-of-bounds indexing
that the Rust binary search never performs. -/
def dfltFile : SourceFile := ⟨.anon, false, .anon, [], 0, 0⟩

/-- The body of the binary-search loop of
`SourceMap::lookup_source_file_in`, recursing on an explicit iteration bound
so that the function computes by structural recursion; each iteration shrinks
`b - a`, so a bound of `b - a` is always sufficient. -/
def lsfGo (files : List SourceFile) (pos : Nat) : Nat → Nat → Nat → Nat
  | 0, a, _ => a
  | fuel + 1, a, b =>
    if a + 1 < b then
      if pos < (files.getD ((a + b) / 2) dfltFile).start_pos then
        lsfGo files pos fuel a ((a + b) / 2)
      else lsfGo files pos fuel ((a + b) / 2) b
    else a

/-- The binary-search loop of `SourceMap::lookup_source_file_in`:
`while b - a > 1 { m := (a+b)/2; if files[m].start_pos > pos { b := m } else { a := m } }`. -/
def lsfLoop (files : List SourceFile) (pos : Nat) (a b : Nat) : Nat :=
  lsfGo files pos (b - a) a b

/-- The `SourceMap::lookup_source_file_in`: `None` for the dummy position, else
binary search the file vector; `None` when the final index is out of range. -/
def lookupSourceFileIn (files : List SourceFile) (pos : Nat) : Option SourceFile :=
  if bytePosIsDummy pos then none
  else
    let count := files.length
    let a := lsfLoop files pos 0 count
    if a ≥ count then none else some (files.getD a dfltFile)

/-- The `SourceMap::try_lookup_source_file`.  The Rust function returns
`Ok(Some(fm))` or `Err(NoFileFor(pos))` and never `Ok(None)`; the embedding
flattens the `Option`. -/
def SourceMap.tryLookupSourceFile (sm : SourceMap) (pos : Nat) :
    Except SourceMapLookupError SourceFile :=
  match lookupSourceFileIn sm.source_files pos with
  | some fm => .ok fm
  | none => .error (.NoFileFor pos)

structure SourceFileAndBytePos where
  sf : SourceFile
  pos : Nat
deriving DecidableEq, Repr

/-- The `SourceMap::try_lookup_byte_offset`: the local offset of a global position
within its containing file. -/
def SourceMap.tryLookupByteOffset (sm : SourceMap) (bpos : Nat) :
    Except SourceMapLookupError SourceFileAndBytePos := do
  let sf ← sm.tryLookupSourceFile bpos
  return ⟨sf, bpos - sf.start_pos⟩

-- ---------------------------------------------------------------------------
-- Byte ↔ char / UTF-16 conversion with the cursor cache
-- ---------------------------------------------------------------------------

/-- The `ByteToCharPosState`: the cursor cache `{pos, total_extra_bytes,
mbc_index}` of the byte → UTF-16 conversion. -/
structure ByteToCharPosState where
  pos : Nat
  total_extra_bytes : Nat
  mbc_index : Nat
deriving DecidableEq, Repr

/-- The `ByteToCharPosState::default()`. -/
def ByteToCharPosState.dflt : ByteToCharPosState := ⟨0, 0, 0⟩

/-- The forward scan of `calc_utf16_offset`: walk the multibyte chars from the
cursor, stopping at the first entry with `pos ≥ bpos`; return the added extra
bytes and the number of entries consumed. -/
def fwdScan : List MultiByteChar → Nat → Nat × Nat
  | [], _ => (0, 0)
  | m :: rest, b =>
    if b ≤ m.pos then (0, 0)
    else
      let r := fwdScan rest b
      (m.byteToCharDiff + r.1, r.2 + 1)

/-- The backward scan of `calc_utf16_offset`: walk the multibyte chars below
the cursor in reverse, stopping at the first entry with `pos < bpos`; return
the subtracted extra bytes and the number of entries consumed.  The input list
is the reversed prefix below the cursor. -/
def bwdScan : List MultiByteChar → Nat → Nat × Nat
  | [], _ => (0, 0)
  | m :: rest, b =>
    if m.pos < b then (0, 0)
    else
      let r := bwdScan rest b
      (m.byteToCharDiff + r.1, r.2 + 1)

/-- The `calc_utf16_offset`: the number of excess bytes of the UTF-8 encoding
relative to UTF-16 before `bpos`, maintained through the cursor cache.
Returns the total together with the updated state. -/
def calcUtf16Offset (file : SourceFile) (bpos : Nat)
    (state : ByteToCharPosState) : Nat × ByteToCharPosState :=
  if state.pos ≤ bpos then
    (state.total_extra_bytes +
       (fwdScan (file.analyze.multibyte_chars.drop state.mbc_index) bpos).1,
     ⟨bpos,
      state.total_extra_bytes +
        (fwdScan (file.analyze.multibyte_chars.drop state.mbc_index) bpos).1,
      state.mbc_index +
        (fwdScan (file.analyze.multibyte_chars.drop state.mbc_index) bpos).2⟩)
  else
    (state.total_extra_bytes -
       (bwdScan ((file.analyze.multibyte_chars.take state.mbc_index).reverse) bpos).1,
     ⟨bpos,
      state.total_extra_bytes -
        (bwdScan ((file.analyze.multibyte_chars.take state.mbc_index).reverse) bpos).1,
      state.mbc_index -
        (bwdScan ((file.analyze.multibyte_chars.take state.mbc_index).reverse) bpos).2⟩)

/-- The `SourceMap::bytepos_to_file_charpos_with`: `bpos − start_pos −
total_extra_bytes`, computed from a fresh default cursor state. -/
def bytePosToFileCharPosWith (map : SourceFile) (bpos : Nat) : Nat :=
  let total := (calcUtf16Offset map bpos ByteToCharPosState.dflt).1
  bpos - map.start_pos - total

/-- The `SourceMap::bytepos_to_file_charpos`. -/
def SourceMap.bytePosToFileCharPos (sm : SourceMap) (bpos : Nat) :
    Except SourceMapLookupError Nat := do
  let map ← sm.tryLookupSourceFile bpos
  return bytePosToFileCharPosWith map bpos

/-- Thread the cursor state through a sequence of queries, returning the
answers in order. -/
def calcSeq (file : SourceFile) (state : ByteToCharPosState) :
    List Nat → List Nat
  | [] => []
  | q :: rest =>
    let r := calcUtf16Offset file q state
    r.1 :: calcSeq file r.2 rest

-- ---------------------------------------------------------------------------
-- Line and location lookup
-- ---------------------------------------------------------------------------

structure SourceFileAndLine where
  sf : SourceFile
  line : Nat
deriving DecidableEq, Repr

/-- The `SourceMap::lookup_line`: resolve the file (panicking on a failed lookup —
embedded as the outer `Except`), then the zero-based line; `Except.error f`
in the inner layer is the "empty source file, no line number" outcome. -/
def SourceMap.lookupLine (sm : SourceMap) (pos : Nat) :
    Except SourceMapLookupError (Except SourceFile SourceFileAndLine) := do
  let f ← sm.tryLookupSourceFile pos
  match f.lookupLine pos with
  | some line => return .ok ⟨f, line⟩
  | none => return .error f

/-- A resolved location (display column omitted, see header). -/
structure Loc where
  file : SourceFile
  line : Nat
  col : Nat
deriving DecidableEq, Repr

/-- The `SourceMap::try_lookup_char_pos` (via `try_lookup_char_pos_with`): file
lookup, line lookup, then 1-based line and column = charpos(pos) −
charpos(line start); for an empty file, line 0 and the raw charpos. -/
def SourceMap.tryLookupCharPos (sm : SourceMap) (pos : Nat) :
    Except SourceMapLookupError Loc := do
  let fm ← sm.tryLookupSourceFile pos
  match fm.lookupLine pos with
  | some a =>
    let chpos := bytePosToFileCharPosWith fm pos
    let line := a + 1
    let linebpos := fm.analyze.lines.getD a 0
    let linechpos := bytePosToFileCharPosWith fm linebpos
    return ⟨fm, line, chpos - linechpos⟩
  | none =>
    let chpos ← sm.bytePosToFileCharPos pos
    return ⟨fm, 0, chpos⟩

/-- The `SourceMap::merge_spans`: `None` when an endpoint has no line number; else
merge only when line of `lhs.hi` equals line of `rhs.lo`, `lhs.lo ≤ rhs.lo`
and `lhs.hi ≤ rhs.lo`.  The outer `Except` is the panic of the embedded
`lookup_line` `unwrap`s. -/
def SourceMap.mergeSpans (sm : SourceMap) (sp_lhs sp_rhs : Span) :
    Except SourceMapLookupError (Option Span) := do
  let lhs_end ← sm.lookupLine sp_lhs.hi
  match lhs_end with
  | .error _ => return none
  | .ok lhs_end =>
    let rhs_begin ← sm.lookupLine sp_rhs.lo
    match rhs_begin with
    | .error _ => return none
    | .ok rhs_begin =>
      if lhs_end.line ≠ rhs_begin.line then return none
      else if sp_lhs.lo ≤ sp_rhs.lo ∧ sp_lhs.hi ≤ sp_rhs.lo then
        return some (sp_lhs.to sp_rhs)
      else return none

-- ---------------------------------------------------------------------------
-- Snippet extraction (span_to_source and its consumers)
-- ---------------------------------------------------------------------------

/-- Drop the first `n` bytes of a text; agrees with Rust `&src[n..]` whenever
`n` is a character boundary. -/
def utf8Drop : List Nat → Nat → List Nat
  | l, 0 => l
  | [], _ => []
  | c :: r, n => utf8Drop r (n - utf8Size c)

/-- Take the first `n` bytes of a text; agrees with Rust `&src[..n]` whenever
`n` is a character boundary. -/
def utf8Take : List Nat → Nat → List Nat
  | _, 0 => []
  | [], _ => []
  | c :: r, n => if utf8Size c ≤ n then c :: utf8Take r (n - utf8Size c) else []

/-- Rust byte slice `&src[a..b]` at character boundaries. -/
def utf8Slice (l : List Nat) (a b : Nat) : List Nat := utf8Take (utf8Drop l a) (b - a)

inductive SpanSnippetError where
  | IllFormedSpan (sp : Span)
  | DummyBytePos
  | DistinctSources (beginName : FileName) (beginStart : Nat)
      (endName : FileName) (endStart : Nat)
  | MalformedForSourcemap (name : FileName) (source_len begin_pos end_pos : Nat)
  | Lookup (e : SourceMapLookupError)
deriving DecidableEq, Repr

/-- The `SourceMap::span_to_source`: validate the span (`IllFormedSpan`,
`DummyBytePos`, `DistinctSources`, `MalformedForSourcemap`), then hand the
owned source and the two local byte offsets to the extraction function. -/
def SourceMap.spanToSource (sm : SourceMap) (sp : Span)
    (extract_source : List Nat → Nat → Nat → α) : Except SpanSnippetError α :=
  if sp.hi < sp.lo then .error (.IllFormedSpan sp)
  else if bytePosIsDummy sp.lo || bytePosIsDummy sp.hi then .error .DummyBytePos
  else
    match sm.tryLookupByteOffset sp.lo with
    | .error e => .error (.Lookup e)
    | .ok local_begin =>
      match sm.tryLookupByteOffset sp.hi with
      | .error e => .error (.Lookup e)
      | .ok local_end =>
        if local_begin.sf.start_pos ≠ local_end.sf.start_pos then
          .error (.DistinctSources local_begin.sf.name local_begin.sf.start_pos
            local_end.sf.name local_end.sf.start_pos)
        else
          let start_index := local_begin.pos
          let end_index := local_end.pos
          let source_len := local_begin.sf.end_pos - local_begin.sf.start_pos
          if end_index < start_index ∨ source_len < end_index then
            .error (.MalformedForSourcemap local_begin.sf.name source_len
              start_index end_index)
          else
            .ok (extract_source local_begin.sf.src start_index end_index)

/-- The `SourceMapper::span_to_snippet` (the default implementation in
`source_map.rs`): the byte slice `src[lo − start_pos .. hi − start_pos]`. -/
def SourceMap.spanToSnippet (sm : SourceMap) (sp : Span) :
    Except SpanSnippetError (List Nat) :=
  sm.spanToSource sp (fun src a b => utf8Slice src a b)

/-- The `SourceMap::span_to_next_source`: the source text after the span,
`src[end_index..]`. -/
def SourceMap.spanToNextSource (sm : SourceMap) (sp : Span) :
    Except SpanSnippetError (List Nat) :=
  sm.spanToSource sp (fun src _ b => utf8Drop src b)

/-- Rust `str::split(c).next()`: the prefix before the first occurrence of `c`
(the whole text when `c` is absent). -/
def splitFirst (l : List Nat) (c : Nat) : List Nat :=
  l.takeWhile (fun x => x != c)

/-- The `char::is_whitespace` restricted to the ASCII range; all claims exercise
ASCII sources only. -/
def isWsCp (c : Nat) : Bool := c == 32 || (decide (9 ≤ c) && decide (c ≤ 13))

/-- Rust `str::trim_end` (ASCII range). -/
def trimEnd (l : List Nat) : List Nat := (l.reverse.dropWhile isWsCp).reverse

/-- The `SourceMap::span_extend_to_next_char`: split the following source at `c`,
trim, and extend `hi` by the byte length of the remainder when it is non-empty
and newline-free; otherwise (or on any error) return the span unchanged. -/
def SourceMap.spanExtendToNextChar (sm : SourceMap) (sp : Span) (c : Nat) : Span :=
  match sm.spanToNextSource sp with
  | .ok next_source =>
    let next_source := trimEnd (splitFirst next_source c)
    if !next_source.isEmpty && !next_source.contains 10 then
      sp.withHi (sp.hi + byteLen next_source)
    else sp
  | .error _ => sp

/-- The `SourceMap::span_until_char`: dummy spans pass through; split the snippet
at `c`, trim, and shrink `hi` to `lo +` the byte length of the prefix when it
is non-empty and newline-free; on any error return the span unchanged. -/
def SourceMap.spanUntilChar (sm : SourceMap) (sp : Span) (c : Nat) : Span :=
  if sp.isDummy then sp
  else
    match sm.spanToSource sp (fun src a b =>
        let snippet := trimEnd (splitFirst (utf8Slice src a b) c)
        if !snippet.isEmpty && !snippet.contains 10 then
          sp.withHi (sp.lo + byteLen snippet)
        else sp) with
    | .ok v => v
    | .error _ => sp

-- ---------------------------------------------------------------------------
-- Source-map emission (build_source_map)
-- ---------------------------------------------------------------------------

/-- A generated (line, column) pair. -/
structure LineCol where
  line : Nat
  col : Nat
deriving DecidableEq, Repr

/-- One mapping record handed to the serializer by `builder.add_raw`. -/
structure RawToken where
  dst_line : Nat
  dst_col : Nat
  src_line : Nat
  src_col : Nat
  src_id : Option Nat
  name_id : Option Nat
deriving DecidableEq, Repr

/-- Modelled from the spec (§4.7): the shape of the builder the emitter feeds —
the `sources`, `names`, `ignoreList` and `sourcesContent` arrays and the
ordered mapping records (`swc_sourcemap::SourceMapBuilder`, an external
crate). -/
structure Builder where
  sources : List FileName
  names : List String
  ignore_list : List Nat
  source_contents : List (Nat × List Nat)
  tokens : List RawToken
deriving DecidableEq, Repr

def Builder.empty : Builder := ⟨[], [], [], [], []⟩

/-- The `builder.add_source`: append and return the new index. -/
def Builder.addSource (b : Builder) (s : FileName) : Builder × Nat :=
  ({ b with sources := b.sources ++ [s] }, b.sources.length)

/-- The `builder.add_name`: append and return the new index. -/
def Builder.addName (b : Builder) (s : String) : Builder × Nat :=
  ({ b with names := b.names ++ [s] }, b.names.length)

def Builder.addToIgnoreList (b : Builder) (id : Nat) : Builder :=
  { b with ignore_list := b.ignore_list ++ [id] }

def Builder.setSourceContents (b : Builder) (id : Nat) (src : List Nat) : Builder :=
  { b with source_contents := b.source_contents ++ [(id, src)] }

def Builder.addRaw (b : Builder) (t : RawToken) : Builder :=
  { b with tokens := b.tokens ++ [t] }

/-- The generation config consumed by `build_source_map`
(`SourceMapGenConfig`), as a record of its recognized options. -/
structure SourceMapGenConfig where
  file_name_to_source : FileName → FileName
  name_for_bytepos : Nat → Option String
  inline_sources_content : FileName → Bool
  emit_columns : FileName → Bool
  skip : FileName → Bool
  ignore_list : FileName → Bool

/-- The default `SourceMapGenConfig::inline_sources_content`. -/
def defaultInlineSourcesContent (f : FileName) : Bool :=
  match f with
  | .real _ => false
  | .custom _ => false
  | .url _ => false
  | _ => true

/-- The default `SourceMapGenConfig::emit_columns`. -/
def defaultEmitColumns (_f : FileName) : Bool := true

/-- The default `SourceMapGenConfig::skip`: skip internal files. -/
def defaultSkip (f : FileName) : Bool :=
  match f with
  | .internal _ => true
  | _ => false

/-- The default `SourceMapGenConfig::ignore_list`: anonymous and internal
files. -/
def defaultIgnoreList (f : FileName) : Bool :=
  match f with
  | .anon => true
  | .internal _ => true
  | _ => false

/-- The loop state of `build_source_map`. -/
structure BuildState where
  builder : Builder
  src_id : Nat
  cur_file : Option SourceFile
  prev_dst_line : Nat
  ch_state : ByteToCharPosState
  line_state : ByteToCharPosState

def BuildState.init : BuildState :=
  ⟨Builder.empty, 0, none, u32Max, ByteToCharPosState.dflt, ByteToCharPosState.dflt⟩

/-- The tail of a `build_source_map` iteration once the current file is
resolved: the second `skip` check, the `emit_columns`/previous-line filter,
the line lookup, the two cursor-cached UTF-16 conversions and the
`add_raw`. -/
def buildEmit (config : SourceMapGenConfig) (orig_none : Bool) (st : BuildState)
    (f : SourceFile) (lc : LineCol) (pos : Nat) : BuildState :=
  if config.skip f.name then st
  else if !config.emit_columns f.name && lc.line == st.prev_dst_line then st
  else
    match f.lookupLine pos with
    | none => st
    | some line =>
      let linebpos := f.analyze.lines.getD line 0
      let lineRes := calcUtf16Offset f linebpos st.line_state
      let linechpos := linebpos - lineRes.1
      let chRes := calcUtf16Offset f pos st.ch_state
      let chpos := pos - chRes.1
      let col := chpos - linechpos
      let nameStep :=
        if orig_none then
          match config.name_for_bytepos pos with
          | some n => let r := st.builder.addName n; (r.1, some r.2)
          | none => (st.builder, none)
        else (st.builder, none)
      { st with
          builder := nameStep.1.addRaw
            ⟨lc.line, lc.col, line, col, some st.src_id, nameStep.2⟩
          prev_dst_line := lc.line
          ch_state := chRes.2
          line_state := lineRes.2 }

/-- One iteration of the `build_source_map` loop.  `map_raw_pos` is the
identity and `is_in_file` the default `start_pos ≤ pos < end_pos` of the
`Files` implementation for `SourceMap`.  The `Except` is the `unwrap` panic of
the file lookup. -/
def buildStep (sm : SourceMap) (config : SourceMapGenConfig) (orig_none : Bool)
    (st : BuildState) (m : Nat × LineCol) :
    Except SourceMapLookupError BuildState :=
  let raw_pos := m.1
  let pos := raw_pos
  let lc := m.2
  if isReservedForComments pos then .ok st
  else if lc.line == 0 && lc.col == 0 && bytePosIsDummy pos then .ok st
  else if pos == u32Max then
    .ok { st with builder :=
      st.builder.addRaw ⟨lc.line, lc.col, 0, 0, some st.src_id, none⟩ }
  else
    match st.cur_file with
    | some f =>
      if decide (f.start_pos ≤ raw_pos) && decide (raw_pos < f.end_pos) then
        .ok (buildEmit config orig_none st f lc pos)
      else do
        let f ← sm.tryLookupSourceFile raw_pos
        if config.skip f.name then return st
        let r := st.builder.addSource (config.file_name_to_source f.name)
        let b := r.1
        let src_id := r.2
        let b := if orig_none && config.ignore_list f.name then
            b.addToIgnoreList src_id else b
        let b := if orig_none && config.inline_sources_content f.name then
            b.setSourceContents src_id f.src else b
        return buildEmit config orig_none
          { st with
            builder := b, src_id := src_id, cur_file := some f,
            ch_state := ByteToCharPosState.dflt,
            line_state := ByteToCharPosState.dflt } f lc pos
    | none => do
      let f ← sm.tryLookupSourceFile raw_pos
      if config.skip f.name then return st
      let r := st.builder.addSource (config.file_name_to_source f.name)
      let b := r.1
      let src_id := r.2
      let b := if orig_none && config.ignore_list f.name then
          b.addToIgnoreList src_id else b
      let b := if orig_none && config.inline_sources_content f.name then
          b.setSourceContents src_id f.src else b
      return buildEmit config orig_none
        { st with
          builder := b, src_id := src_id, cur_file := some f,
          ch_state := ByteToCharPosState.dflt,
          line_state := ByteToCharPosState.dflt } f lc pos

/-- The `build_source_map` over a `SourceMap`: fold the loop over the mappings and
return the builder (composition through an upstream map only reshapes the
result afterwards and is not consumed by any claim; `orig_none` records
whether an upstream map is absent). -/
def buildSourceMap (sm : SourceMap) (mappings : List (Nat × LineCol))
    (orig_none : Bool) (config : SourceMapGenConfig) :
    Except SourceMapLookupError Builder := do
  let st ← mappings.foldlM (buildStep sm config orig_none) BuildState.init
  return st.builder

-- ---------------------------------------------------------------------------
-- Generic list lemmas
-- ---------------------------------------------------------------------------

theorem takeWhile_append_all {α : Type} (p : α → Bool) (xs ys : List α)
    (h : ∀ x ∈ xs, p x = true) :
    (xs ++ ys).takeWhile p = xs ++ ys.takeWhile p := by
  induction xs with
  | nil => simp
  | cons x xs ih =>
    have hx := h x (by simp)
    simp [List.takeWhile, hx]
    exact ih (fun y hy => h y (by simp [hy]))

theorem takeWhile_eq_nil_of_head {α : Type} (p : α → Bool) (xs : List α)
    (h : ∀ x ∈ xs, p x = false) :
    xs.takeWhile p = [] := by
  cases xs with
  | nil => rfl
  | cons x xs => simp [List.takeWhile, h x (by simp)]

theorem takeWhile_takeWhile_of_imp {α : Type} (p q : α → Bool) (l : List α)
    (h : ∀ x, p x = true → q x = true) :
    (l.takeWhile q).takeWhile p = l.takeWhile p := by
  induction l with
  | nil => rfl
  | cons x xs ih =>
    by_cases hp : p x = true
    · have hq := h x hp
      simp [List.takeWhile, hp, hq, ih]
    · have hp' : p x = false := by simpa using hp
      by_cases hq : q x = true <;> simp [List.takeWhile, hp', hq]

theorem dropWhile_all_false {α : Type} (p : α → Bool) (l : List α)
    (hl : l.Pairwise fun a b => ∀ _ : p a = false, p b = false) :
    ∀ x ∈ l.dropWhile p, p x = false := by
  induction l with
  | nil => simp
  | cons a as ih =>
    intro x hx
    by_cases ha : p a = true
    · rw [List.dropWhile_cons_of_pos ha] at hx
      exact ih hl.of_cons x hx
    · have ha' : p a = false := by simpa using ha
      rw [List.dropWhile_cons_of_neg (by simp [ha'])] at hx
      rcases List.mem_cons.mp hx with rfl | hx
      · exact ha'
      · exact (List.pairwise_cons.mp hl).1 x hx ha'

theorem drop_takeWhile_length {α : Type} (p : α → Bool) (l : List α) :
    l.drop (l.takeWhile p).length = l.dropWhile p := by
  have h := List.drop_left (l.takeWhile p) (l.dropWhile p)
  rwa [List.takeWhile_append_dropWhile] at h

theorem take_takeWhile_length {α : Type} (p : α → Bool) (l : List α) :
    l.take (l.takeWhile p).length = l.takeWhile p := by
  have h := List.take_left (l.takeWhile p) (l.dropWhile p)
  rwa [List.takeWhile_append_dropWhile] at h

-- ---------------------------------------------------------------------------
-- The multibyte-char tables of the analysis are sorted
-- ---------------------------------------------------------------------------

theorem analyzeRec_mbc_lb (src : List Nat) (pos : Nat) :
    ∀ m ∈ (analyzeRec src pos).2, pos ≤ m.pos := by
  induction src generalizing pos with
  | nil => simp [analyzeRec]
  | cons c rest ih =>
    intro m hm
    have h1 : 1 ≤ utf8Size c := by
      unfold utf8Size; split <;> [skip; split <;> [skip; split]] <;> omega
    simp only [analyzeRec] at hm
    by_cases h2 : 2 ≤ utf8Size c
    · simp [h2] at hm
      rcases hm with rfl | hm
      · exact le_refl _
      · exact le_trans (by omega) (ih (pos + utf8Size c) m hm)
    · simp [h2] at hm
      exact le_trans (by omega) (ih (pos + utf8Size c) m hm)

theorem analyzeRec_mbc_sorted (src : List Nat) (pos : Nat) :
    ((analyzeRec src pos).2).Pairwise fun a b => a.pos < b.pos := by
  induction src generalizing pos with
  | nil => simp [analyzeRec]
  | cons c rest ih =>
    have h1 : 1 ≤ utf8Size c := by
      unfold utf8Size; split <;> [skip; split <;> [skip; split]] <;> omega
    simp only [analyzeRec]
    by_cases h2 : 2 ≤ utf8Size c
    · simp only [h2, if_pos]
      refine List.pairwise_cons.mpr ⟨?_, ih (pos + utf8Size c)⟩
      intro m hm
      have := analyzeRec_mbc_lb rest (pos + utf8Size c) m hm
      simp only
      omega
    · simpa [h2] using ih (pos + utf8Size c)

/-- The multibyte-char table of any file analysis is strictly sorted by
position. -/
theorem analyze_mbc_sorted (f : SourceFile) :
    (f.analyze.multibyte_chars).Pairwise fun a b => a.pos < b.pos :=
  analyzeRec_mbc_sorted f.src f.start_pos

-- ---------------------------------------------------------------------------
-- The cursor cache of calc_utf16_offset
-- ---------------------------------------------------------------------------

/-- The multibyte chars strictly before position `b`, as the scan sees them. -/
def prefLT (l : List MultiByteChar) (b : Nat) : List MultiByteChar :=
  l.takeWhile fun m => decide (m.pos < b)

theorem fwdScan_eq (l : List MultiByteChar) (b : Nat) :
    fwdScan l b = (sumDiff (prefLT l b), (prefLT l b).length) := by
  induction l with
  | nil => simp [fwdScan, prefLT, sumDiff]
  | cons m rest ih =>
    by_cases h : b ≤ m.pos
    · simp [fwdScan, prefLT, List.takeWhile, h, Nat.not_lt.mpr h, sumDiff]
    · have h' : m.pos < b := Nat.lt_of_not_le h
      simp [fwdScan, prefLT, List.takeWhile, h, h', sumDiff, ih]

theorem bwdScan_eq (l : List MultiByteChar) (b : Nat) :
    bwdScan l b = (sumDiff (l.takeWhile fun m => decide (b ≤ m.pos)),
      (l.takeWhile fun m => decide (b ≤ m.pos)).length) := by
  induction l with
  | nil => simp [bwdScan, sumDiff]
  | cons m rest ih =>
    by_cases h : m.pos < b
    · simp [bwdScan, List.takeWhile, h, Nat.not_le.mpr h, sumDiff]
    · have h' : b ≤ m.pos := Nat.le_of_not_lt h
      simp [bwdScan, List.takeWhile, h, h', sumDiff, ih]

theorem prefLT_zero (l : List MultiByteChar) : prefLT l 0 = [] := by
  cases l with
  | nil => rfl
  | cons m rest => simp [prefLT, List.takeWhile]

/-- The `prefLT` splits at any earlier cut: the part before `p` followed by the
part of the remainder before `b`. -/
theorem prefLT_split (l : List MultiByteChar) (p b : Nat) (hpb : p ≤ b) :
    prefLT l b = prefLT l p ++ prefLT (l.dropWhile fun m => decide (m.pos < p)) b := by
  induction l with
  | nil => rfl
  | cons m rest ih =>
    by_cases h : m.pos < p
    · have hb : m.pos < b := lt_of_lt_of_le h hpb
      simp [prefLT, List.takeWhile, List.dropWhile, h, hb] at ih ⊢
      exact ih
    · simp [prefLT, List.takeWhile, List.dropWhile, h]

/-- The invariant of the cursor state: the index and the accumulated extra
bytes describe exactly the multibyte chars strictly before the cached
position. -/
def CalcInv (f : SourceFile) (s : ByteToCharPosState) : Prop :=
  s.mbc_index = (prefLT f.analyze.multibyte_chars s.pos).length ∧
  s.total_extra_bytes = sumDiff (prefLT f.analyze.multibyte_chars s.pos)

theorem calcInv_dflt (f : SourceFile) : CalcInv f ByteToCharPosState.dflt := by
  constructor <;> simp [ByteToCharPosState.dflt, prefLT_zero, sumDiff]

theorem sumDiff_append (a b : List MultiByteChar) :
    sumDiff (a ++ b) = sumDiff a + sumDiff b := by
  simp [sumDiff]

theorem sumDiff_reverse (a : List MultiByteChar) : sumDiff a.reverse = sumDiff a := by
  simp [sumDiff, List.sum_reverse]

/-- On a strictly sorted list, taking the reversed entries at positions `≥ b`
is the same as reversing the part after the entries `< b`. -/
theorem takeWhile_ge_reverse (t : List MultiByteChar) (b : Nat)
    (hs : t.Pairwise fun x y => x.pos < y.pos) :
    t.reverse.takeWhile (fun m => decide (b ≤ m.pos)) =
      (t.dropWhile fun m => decide (m.pos < b)).reverse := by
  have hsplit : t = (t.takeWhile fun m => decide (m.pos < b)) ++
      (t.dropWhile fun m => decide (m.pos < b)) :=
    (List.takeWhile_append_dropWhile (p := fun m => decide (m.pos < b)) (l := t)).symm
  have hBall : ∀ x ∈ (t.dropWhile fun m => decide (m.pos < b)).reverse,
      decide (b ≤ x.pos) = true := by
    intro x hx
    rw [List.mem_reverse] at hx
    have hpair : t.Pairwise fun a c =>
        decide (a.pos < b) = false → decide (c.pos < b) = false := by
      refine hs.imp ?_
      intro a c hac hfa
      simp only [decide_eq_false_iff_not, Nat.not_lt] at hfa ⊢
      omega
    have := dropWhile_all_false (fun m => decide (m.pos < b)) t hpair x hx
    simp only [decide_eq_false_iff_not, Nat.not_lt] at this
    simpa using this
  have hAall : ∀ x ∈ (t.takeWhile fun m => decide (m.pos < b)).reverse,
      decide (b ≤ x.pos) = false := by
    intro x hx
    rw [List.mem_reverse] at hx
    have := List.mem_takeWhile_imp hx
    simp only [decide_eq_true_eq] at this
    simp only [decide_eq_false_iff_not, Nat.not_le]
    exact this
  conv_lhs => rw [hsplit]
  rw [List.reverse_append, takeWhile_append_all _ _ _ hBall,
    takeWhile_eq_nil_of_head _ _ hAall, List.append_nil]

/-- The full specification of one `calc_utf16_offset` call from a state
satisfying the cursor invariant: the result is the sum of the byte/UTF-16
differences of the multibyte chars strictly before the query, and the updated
state caches exactly that answer. -/
theorem calcUtf16Offset_spec (f : SourceFile) (s : ByteToCharPosState) (b : Nat)
    (hinv : CalcInv f s) :
    calcUtf16Offset f b s =
      (sumDiff (prefLT f.analyze.multibyte_chars b),
       ⟨b, sumDiff (prefLT f.analyze.multibyte_chars b),
        (prefLT f.analyze.multibyte_chars b).length⟩) := by
  obtain ⟨hidx, htot⟩ := hinv
  unfold calcUtf16Offset
  by_cases hsb : s.pos ≤ b
  · rw [if_pos hsb]
    simp only [prefLT] at hidx htot ⊢
    rw [hidx, drop_takeWhile_length, fwdScan_eq]
    have hsplit := prefLT_split f.analyze.multibyte_chars s.pos b hsb
    simp only [prefLT] at hsplit
    rw [htot, hsplit, sumDiff_append, List.length_append]
    simp [prefLT]
  · rw [if_neg hsb]
    have hb : b < s.pos := Nat.lt_of_not_le hsb
    simp only [prefLT] at hidx htot ⊢
    rw [hidx, take_takeWhile_length, bwdScan_eq,
      takeWhile_ge_reverse _ b
        ((analyze_mbc_sorted f).sublist (List.takeWhile_sublist _)),
      sumDiff_reverse, List.length_reverse, htot]
    have hTAB := List.takeWhile_append_dropWhile
      (p := fun m => decide (m.pos < b))
      (l := f.analyze.multibyte_chars.takeWhile fun m => decide (m.pos < s.pos))
    have hA : ((f.analyze.multibyte_chars.takeWhile fun m =>
          decide (m.pos < s.pos)).takeWhile fun m => decide (m.pos < b)) =
        f.analyze.multibyte_chars.takeWhile fun m => decide (m.pos < b) := by
      refine takeWhile_takeWhile_of_imp _ _ _ ?_
      intro x hx
      simp only [decide_eq_true_eq] at hx ⊢
      omega
    have h1 : sumDiff (f.analyze.multibyte_chars.takeWhile fun m =>
          decide (m.pos < s.pos)) =
        sumDiff (f.analyze.multibyte_chars.takeWhile fun m => decide (m.pos < b)) +
        sumDiff ((f.analyze.multibyte_chars.takeWhile fun m =>
          decide (m.pos < s.pos)).dropWhile fun m => decide (m.pos < b)) := by
      conv_lhs => rw [← hTAB]
      rw [sumDiff_append, hA]
    have h2 : (f.analyze.multibyte_chars.takeWhile fun m =>
          decide (m.pos < s.pos)).length =
        (f.analyze.multibyte_chars.takeWhile fun m => decide (m.pos < b)).length +
        ((f.analyze.multibyte_chars.takeWhile fun m =>
          decide (m.pos < s.pos)).dropWhile fun m => decide (m.pos < b)).length := by
      conv_lhs => rw [← hTAB]
      rw [List.length_append, hA]
    rw [h1, h2]
    simp

/-- A fresh computation (from the default state) returns the sum of the
differences of the multibyte chars strictly before the query. -/
theorem calcUtf16Offset_fresh (f : SourceFile) (b : Nat) :
    (calcUtf16Offset f b ByteToCharPosState.dflt).1 =
      sumDiff (prefLT f.analyze.multibyte_chars b) := by
  rw [calcUtf16Offset_spec _ _ _ (calcInv_dflt f)]

/-- Threading the cursor state through any sequence of queries yields, at each
query, the fresh answer. -/
theorem calcSeq_spec (f : SourceFile) (qs : List Nat) :
    ∀ s : ByteToCharPosState, CalcInv f s →
      calcSeq f s qs =
        qs.map fun q => sumDiff (prefLT f.analyze.multibyte_chars q) := by
  induction qs with
  | nil => intro s _; rfl
  | cons q rest ih =>
    intro s hs
    have hspec := calcUtf16Offset_spec f s q hs
    simp only [calcSeq, hspec, List.map_cons, List.cons.injEq]
    exact ⟨trivial, ih _ ⟨rfl, rfl⟩⟩

/-- On a strictly sorted list, the prefix before `b` is exactly the sublist of
entries before `b`. -/
theorem prefLT_eq_filter (l : List MultiByteChar) (b : Nat)
    (hs : l.Pairwise fun x y => x.pos < y.pos) :
    prefLT l b = l.filter fun m => decide (m.pos < b) := by
  induction l with
  | nil => rfl
  | cons m rest ih =>
    by_cases h : m.pos < b
    · have hd : decide (m.pos < b) = true := by simpa using h
      simp only [prefLT, List.takeWhile, List.filter, hd] at ih ⊢
      exact congrArg _ (ih hs.of_cons)
    · have hd : decide (m.pos < b) = false := by simpa using h
      have hrest : rest.filter (fun m => decide (m.pos < b)) = [] := by
        refine List.filter_eq_nil_iff.mpr ?_
        intro x hx
        have := (List.pairwise_cons.mp hs).1 x hx
        simp only [decide_eq_true_eq]
        omega
      simp [prefLT, List.takeWhile, List.filter, hd, hrest]

-- ---------------------------------------------------------------------------
-- Claim C7: the monotonic cursor
-- ---------------------------------------------------------------------------

/-- A non-decreasing run of queries. -/
def ascendingRun : List Nat → Bool
  | [] => true
  | [_] => true
  | a :: b :: r => decide (a ≤ b) && ascendingRun (b :: r)

/-- A non-increasing run of queries. -/
def descendingRun : List Nat → Bool
  | [] => true
  | [_] => true
  | a :: b :: r => decide (b ≤ a) && descendingRun (b :: r)

/-- C7: for every file and every monotonic sequence of byte positions queried
forward and then backward through that file, `calc_utf16_offset` computed with
the shared cursor state threaded across the queries returns at each query the
same value as a fresh computation started from the default state.  (The proof
in fact never uses the monotonicity: the cursor invariant is preserved by
arbitrary query sequences.) -/
theorem claim7_theorem (name : FileName) (wr : Bool) (un : FileName)
    (src : List Nat) (start : Nat) (qs up down : List Nat)
    (hsplit : qs = up ++ down)
    (hup : ascendingRun up = true)
    (hdown : descendingRun down = true) :
    calcSeq (SourceFile.new name wr un src start) ByteToCharPosState.dflt qs =
      qs.map fun q =>
        (calcUtf16Offset (SourceFile.new name wr un src start) q
          ByteToCharPosState.dflt).1 := by
  rw [calcSeq_spec _ _ _ (calcInv_dflt _)]
  refine List.map_congr_left ?_
  intro q _
  exact (calcUtf16Offset_fresh _ q).symm

/-- Witness for C7 at the repository's own `test_calc_utf16_offset` data: the
file `"t¢e∆s💩t"` queried at every char boundary forward and then backward. -/
theorem claim7_witness :
    calcSeq (SourceFile.new (.real ["blork.rs"]) false (.real ["blork.rs"])
        (str "t¢e∆s💩t") 1) ByteToCharPosState.dflt
      [1, 2, 4, 5, 8, 9, 13, 14, 13, 9, 8, 5, 4, 2, 1] =
    ([1, 2, 4, 5, 8, 9, 13, 14, 13, 9, 8, 5, 4, 2, 1].map fun q =>
      (calcUtf16Offset (SourceFile.new (.real ["blork.rs"]) false
          (.real ["blork.rs"]) (str "t¢e∆s💩t") 1) q
        ByteToCharPosState.dflt).1) :=
  claim7_theorem (.real ["blork.rs"]) false (.real ["blork.rs"])
    (str "t¢e∆s💩t") 1 _
    [1, 2, 4, 5, 8, 9, 13, 14] [13, 9, 8, 5, 4, 2, 1] rfl
    (by decide) (by decide)

-- ---------------------------------------------------------------------------
-- Claim C1: bytepos_to_file_charpos
-- ---------------------------------------------------------------------------

/-- The concrete map refuting C1 as stated: a single file whose text starts
with U+1F4A9, a four-byte character. -/
def c1SM : SourceMap :=
  (SourceMap.new FilePathMapping.empty).registerAll [(.anon, [0x1F4A9, 116])]

def c1File : SourceFile := c1SM.source_files.getD 0 dfltFile

/-- C1 counterexample: at `pos = 5` — the char boundary after the four-byte
character — the code returns char-pos 2, while the claimed formula
`(pos − start_pos) − Σ (bytes − 1)` yields 1: the four-byte character
contributes `bytes − 2 = 2` extra bytes, not `bytes − 1 = 3`. -/
theorem claim1_counterexample :
    c1File.start_pos = 1 ∧
    5 = c1File.start_pos + byteLen (c1File.src.take 1) ∧
    c1File.start_pos ≤ 5 ∧ 5 ≤ c1File.end_pos ∧
    bytePosToFileCharPosWith c1File 5 = 2 ∧
    (5 - c1File.start_pos) -
      (((c1File.analyze.multibyte_chars.filter fun m => decide (m.pos < 5)).map
        fun m => m.bytes - 1).sum) = 1 := by
  decide

/-- C1 (amended): for every file and every `BytePos` on a character boundary
inside it, `bytepos_to_file_charpos` equals
`(pos − start_pos) − total_extra_bytes`, where `total_extra_bytes` sums, over
the multibyte characters of the file located strictly before `pos`,
`bytes − utf16_units` — that is, `bytes − 2` for four-byte characters and
`bytes − 1` otherwise. -/
theorem claim1_theorem (name : FileName) (wr : Bool) (un : FileName)
    (src : List Nat) (start k : Nat) (hk : k ≤ src.length) :
    bytePosToFileCharPosWith (SourceFile.new name wr un src start)
        (start + byteLen (src.take k)) =
      (start + byteLen (src.take k)) - start -
        (((SourceFile.new name wr un src start).analyze.multibyte_chars.filter
            fun m => decide (m.pos < start + byteLen (src.take k))).map
          fun m => m.bytes - (if m.bytes = 4 then 2 else 1)).sum := by
  unfold bytePosToFileCharPosWith
  rw [calcUtf16Offset_fresh, prefLT_eq_filter _ _ (analyze_mbc_sorted _)]
  have hfun : MultiByteChar.byteToCharDiff =
      fun m : MultiByteChar => m.bytes - (if m.bytes = 4 then 2 else 1) := by
    funext m
    unfold MultiByteChar.byteToCharDiff
    split <;> omega
  rw [sumDiff, hfun]
  simp [SourceFile.new]

/-- Witness for C1 at the file `"a¢c"` and the boundary after `"a¢"`. -/
theorem claim1_witness :
    bytePosToFileCharPosWith
        (SourceFile.new .anon false .anon (str "a¢c") 1)
        (1 + byteLen ((str "a¢c").take 2)) =
      (1 + byteLen ((str "a¢c").take 2)) - 1 -
        (((SourceFile.new .anon false .anon (str "a¢c") 1
            ).analyze.multibyte_chars.filter
            fun m => decide (m.pos < 1 + byteLen ((str "a¢c").take 2))).map
          fun m => m.bytes - (if m.bytes = 4 then 2 else 1)).sum :=
  claim1_theorem .anon false .anon (str "a¢c") 1 2 (by decide)

-- ---------------------------------------------------------------------------
-- Claim C4: the position allocator invariant
-- ---------------------------------------------------------------------------

/-- The `ChainedFrom a files b`: the file vector occupies the position space from
`a` (inclusive) to `b` (exclusive of the next free position), each file taking
`[start_pos, end_pos)` with `end_pos = start_pos + len(src)` followed by a
one-position gap. -/
def ChainedFrom : Nat → List SourceFile → Nat → Prop
  | a, [], b => b = a
  | a, f :: rest, b =>
    f.start_pos = a ∧ f.end_pos = f.start_pos + byteLen f.src ∧
      ChainedFrom (f.end_pos + 1) rest b

theorem chainedFrom_append (a b c : Nat) (l1 l2 : List SourceFile)
    (h1 : ChainedFrom a l1 b) (h2 : ChainedFrom b l2 c) :
    ChainedFrom a (l1 ++ l2) c := by
  induction l1 generalizing a with
  | nil =>
    have hba : b = a := h1
    subst hba
    simpa using h2
  | cons f rest ih =>
    obtain ⟨hs, he, hrest⟩ := h1
    exact ⟨hs, he, ih _ hrest⟩

theorem chainedFrom_le (a b : Nat) (l : List SourceFile)
    (h : ChainedFrom a l b) : a ≤ b := by
  induction l generalizing a with
  | nil =>
    have hba : b = a := h
    omega
  | cons f rest ih =>
    obtain ⟨hs, he, hrest⟩ := h
    have := ih _ hrest
    omega

theorem chainedFrom_mem (a b : Nat) (l : List SourceFile)
    (h : ChainedFrom a l b) :
    ∀ f ∈ l, a ≤ f.start_pos ∧ f.end_pos + 1 ≤ b ∧
      f.end_pos = f.start_pos + byteLen f.src := by
  induction l generalizing a with
  | nil => simp
  | cons g rest ih =>
    obtain ⟨hs, he, hrest⟩ := h
    intro f hf
    rcases List.mem_cons.mp hf with rfl | hf
    · exact ⟨by omega, by have := chainedFrom_le _ _ _ hrest; omega, he⟩
    · have := ih _ hrest f hf
      omega

/-- Registration preserves the chain: the new file is appended at the counter
and the counter moves past it by `len + 1`. -/
theorem newSourceFile_chained (sm : SourceMap) (n : FileName) (src : List Nat)
    (h : ChainedFrom 1 sm.source_files sm.start_pos) :
    ChainedFrom 1 (sm.newSourceFile n src).1.source_files
      (sm.newSourceFile n src).1.start_pos := by
  refine chainedFrom_append 1 sm.start_pos _ _ _ h ?_
  refine ⟨rfl, rfl, ?_⟩
  simp [ChainedFrom, SourceFile.new, SourceMap.newSourceFile]

theorem registerAll_chained (sm : SourceMap)
    (regs : List (FileName × List Nat))
    (h : ChainedFrom 1 sm.source_files sm.start_pos) :
    ChainedFrom 1 (sm.registerAll regs).source_files
      (sm.registerAll regs).start_pos := by
  induction regs generalizing sm with
  | nil => exact h
  | cons r rest ih =>
    exact ih _ (newSourceFile_chained sm r.1 r.2 h)

/-- Every `SourceMap` built by a sequence of registrations satisfies the
chained-allocation invariant. -/
theorem built_chained (pm : FilePathMapping) (regs : List (FileName × List Nat)) :
    ChainedFrom 1 ((SourceMap.new pm).registerAll regs).source_files
      ((SourceMap.new pm).registerAll regs).start_pos :=
  registerAll_chained _ regs (by exact rfl)

/-- Index form of the chain: files at earlier indices end strictly below the
start of files at later indices, with a gap of at least one. -/
theorem chainedFrom_getD (a b : Nat) (l : List SourceFile)
    (h : ChainedFrom a l b) (i j : Nat) (hij : i < j) (hj : j < l.length) :
    (l.getD i dfltFile).end_pos + 1 ≤ (l.getD j dfltFile).start_pos := by
  induction l generalizing a i j with
  | nil => simp at hj
  | cons f rest ih =>
    obtain ⟨hs, he, hrest⟩ := h
    match i, j with
    | 0, j + 1 =>
      have hmem := chainedFrom_mem _ _ _ hrest
      have hjlen : j < rest.length := by simpa using hj
      have hmemj : rest.getD j dfltFile ∈ rest := by
        rw [List.getD_eq_getElem _ _ hjlen]
        exact List.getElem_mem hjlen
      have := hmem _ hmemj
      simp only [List.getD_cons_zero, List.getD_cons_succ]
      omega
    | i + 1, j + 1 =>
      have hjlen : j < rest.length := by simpa using hj
      have := ih _ hrest i j (by omega) hjlen
      simpa using this

-- ---------------------------------------------------------------------------
-- Characterizing the binary search of lookup_source_file_in
-- ---------------------------------------------------------------------------

theorem lsfGo_bounds (files : List SourceFile) (pos : Nat) :
    ∀ (n a b : Nat), b - a ≤ n → a < b →
      a ≤ lsfGo files pos n a b ∧ lsfGo files pos n a b < b := by
  intro n
  induction n with
  | zero => intro a b h1 h2; omega
  | succ n ih =>
    intro a b h1 h2
    unfold lsfGo
    by_cases h : a + 1 < b
    · rw [if_pos h]
      by_cases hc : pos < (files.getD ((a + b) / 2) dfltFile).start_pos
      · rw [if_pos hc]
        have := ih a ((a + b) / 2) (by omega) (by omega)
        omega
      · rw [if_neg hc]
        have := ih ((a + b) / 2) b (by omega) (by omega)
        omega
    · rw [if_neg h]
      omega

theorem lsfLoop_bounds (files : List SourceFile) (pos : Nat) (a b : Nat)
    (h2 : a < b) :
    a ≤ lsfLoop files pos a b ∧ lsfLoop files pos a b < b :=
  lsfGo_bounds files pos (b - a) a b (le_refl _) h2

theorem lsfGo_spec (files : List SourceFile) (pos : Nat) :
    ∀ (n a b : Nat), b - a ≤ n → a < b → b ≤ files.length →
      (b < files.length → pos < (files.getD b dfltFile).start_pos) →
      (a = 0 ∨ (files.getD a dfltFile).start_pos ≤ pos) →
      ((lsfGo files pos n a b = 0 ∨
        (files.getD (lsfGo files pos n a b) dfltFile).start_pos ≤ pos) ∧
       (lsfGo files pos n a b + 1 < files.length →
         pos < (files.getD (lsfGo files pos n a b + 1) dfltFile).start_pos)) := by
  intro n
  induction n with
  | zero => intro a b h1 h2; omega
  | succ n ih =>
    intro a b h1 h2 hble hb ha
    unfold lsfGo
    by_cases h : a + 1 < b
    · rw [if_pos h]
      by_cases hc : pos < (files.getD ((a + b) / 2) dfltFile).start_pos
      · rw [if_pos hc]
        exact ih a ((a + b) / 2) (by omega) (by omega) (by omega)
          (fun hm => hc) ha
      · rw [if_neg hc]
        exact ih ((a + b) / 2) b (by omega) (by omega) hble hb
          (Or.inr (Nat.le_of_not_lt hc))
    · rw [if_neg h]
      have hba : b = a + 1 := by omega
      subst hba
      exact ⟨ha, hb⟩

theorem lsfLoop_spec (files : List SourceFile) (pos : Nat) (a b : Nat)
    (h2 : a < b) (hble : b ≤ files.length)
    (hb : b < files.length → pos < (files.getD b dfltFile).start_pos)
    (ha : a = 0 ∨ (files.getD a dfltFile).start_pos ≤ pos) :
    ((lsfLoop files pos a b = 0 ∨
      (files.getD (lsfLoop files pos a b) dfltFile).start_pos ≤ pos) ∧
     (lsfLoop files pos a b + 1 < files.length →
       pos < (files.getD (lsfLoop files pos a b + 1) dfltFile).start_pos)) :=
  lsfGo_spec files pos (b - a) a b (le_refl _) h2 hble hb ha

theorem pairwise_getD_lt (files : List SourceFile)
    (hs : files.Pairwise fun f g => f.start_pos < g.start_pos)
    (i j : Nat) (hij : i < j) (hj : j < files.length) :
    (files.getD i dfltFile).start_pos < (files.getD j dfltFile).start_pos := by
  have hi : i < files.length := by omega
  rw [List.getD_eq_getElem _ _ hi, List.getD_eq_getElem _ _ hj]
  exact List.pairwise_iff_get.mp hs ⟨i, hi⟩ ⟨j, hj⟩ hij

theorem pairwise_getD_le (files : List SourceFile)
    (hs : files.Pairwise fun f g => f.start_pos < g.start_pos)
    (i j : Nat) (hij : i ≤ j) (hj : j < files.length) :
    (files.getD i dfltFile).start_pos ≤ (files.getD j dfltFile).start_pos := by
  rcases Nat.lt_or_ge i j with h | h
  · exact Nat.le_of_lt (pairwise_getD_lt files hs i j h hj)
  · have : i = j := by omega
    subst this
    exact le_refl _

/-- On a vector of files strictly sorted by `start_pos`, the binary search of
`lookup_source_file_in` finds exactly the file whose `start_pos` is the
greatest one `≤ pos`. -/
theorem lookupSourceFileIn_eq (files : List SourceFile) (pos : Nat) (i : Nat)
    (hs : files.Pairwise fun f g => f.start_pos < g.start_pos)
    (hi : i < files.length)
    (hle : (files.getD i dfltFile).start_pos ≤ pos)
    (hnext : i + 1 < files.length →
      pos < (files.getD (i + 1) dfltFile).start_pos)
    (hpos : pos ≠ 0) :
    lookupSourceFileIn files pos = some (files.getD i dfltFile) := by
  have hd : bytePosIsDummy pos = false := by
    simp [bytePosIsDummy, hpos]
  have hlen : 0 < files.length := by omega
  have hb := lsfLoop_bounds files pos 0 files.length hlen
  have hsp := lsfLoop_spec files pos 0 files.length hlen (le_refl _)
    (by omega) (Or.inl rfl)
  set r := lsfLoop files pos 0 files.length with hr
  have hri : r = i := by
    rcases Nat.lt_trichotomy r i with hlt | heq | hgt
    · exfalso
      have h1 : r + 1 < files.length := by omega
      have h2 := hsp.2 h1
      have h3 := pairwise_getD_le files hs (r + 1) i (by omega) hi
      omega
    · exact heq
    · exfalso
      have h1 : (files.getD r dfltFile).start_pos ≤ pos := by
        rcases hsp.1 with h | h
        · omega
        · exact h
      have h2 := hnext (by omega)
      have h3 := pairwise_getD_le files hs (i + 1) r (by omega) (by omega)
      omega
  unfold lookupSourceFileIn
  rw [hd]
  simp only [Bool.false_eq_true, if_false, ← hr, hri]
  rw [if_neg (by omega)]

theorem chainedFrom_pairwise (a b : Nat) (l : List SourceFile)
    (h : ChainedFrom a l b) :
    l.Pairwise fun f g => f.start_pos < g.start_pos := by
  induction l generalizing a with
  | nil => exact List.Pairwise.nil
  | cons f rest ih =>
    obtain ⟨hs, he, hrest⟩ := h
    refine List.pairwise_cons.mpr ⟨?_, ih _ hrest⟩
    intro g hg
    have := chainedFrom_mem _ _ _ hrest g hg
    omega

/-- The `SourceMap` obtained by registering `regs` on a fresh map. -/
def builtSM (pm : FilePathMapping) (regs : List (FileName × List Nat)) :
    SourceMap :=
  (SourceMap.new pm).registerAll regs

theorem builtSM_chained (pm : FilePathMapping)
    (regs : List (FileName × List Nat)) :
    ChainedFrom 1 (builtSM pm regs).source_files (builtSM pm regs).start_pos :=
  built_chained pm regs

theorem registerAll_length (sm : SourceMap)
    (regs : List (FileName × List Nat)) :
    (sm.registerAll regs).source_files.length =
      sm.source_files.length + regs.length := by
  induction regs generalizing sm with
  | nil => simp [SourceMap.registerAll]
  | cons r rest ih =>
    have step : ((sm.newSourceFile r.1 r.2).1).source_files.length =
        sm.source_files.length + 1 := by
      simp [SourceMap.newSourceFile]
    calc (sm.registerAll (r :: rest)).source_files.length
        = ((sm.newSourceFile r.1 r.2).1.registerAll rest).source_files.length := rfl
      _ = (sm.newSourceFile r.1 r.2).1.source_files.length + rest.length := ih _
      _ = sm.source_files.length + (r :: rest).length := by
          rw [step]; simp; omega

-- ---------------------------------------------------------------------------
-- Claim C4
-- ---------------------------------------------------------------------------

/-- C4: after any sequence of registrations, the `[start_pos, end_pos)`
intervals of distinct files are disjoint and separated by at least one
position; every file, even an empty one, has a unique `start_pos`; the first
`start_pos` is 1 (position 0 is the dummy); and one registration of a source
of `n` bytes reserves exactly `n + 1` positions at the counter, with
`end_pos = start_pos + n`. -/
theorem claim4_theorem (pm : FilePathMapping)
    (regs : List (FileName × List Nat)) :
    (∀ i j, i < j → j < (builtSM pm regs).source_files.length →
      ((builtSM pm regs).source_files.getD i dfltFile).end_pos + 1 ≤
        ((builtSM pm regs).source_files.getD j dfltFile).start_pos) ∧
    (∀ i j, i < j → j < (builtSM pm regs).source_files.length →
      ((builtSM pm regs).source_files.getD i dfltFile).start_pos ≠
        ((builtSM pm regs).source_files.getD j dfltFile).start_pos) ∧
    (∀ f ∈ (builtSM pm regs).source_files,
      f.end_pos = f.start_pos + byteLen f.src ∧ 1 ≤ f.start_pos) ∧
    (regs ≠ [] →
      ((builtSM pm regs).source_files.getD 0 dfltFile).start_pos = 1) ∧
    (∀ (sm : SourceMap) (n : FileName) (s : List Nat),
      (sm.newSourceFile n s).2.start_pos = sm.start_pos ∧
      (sm.newSourceFile n s).2.end_pos =
        sm.start_pos + byteLen (removeBom s) ∧
      (sm.newSourceFile n s).1.start_pos =
        sm.start_pos + byteLen (removeBom s) + 1) := by
  have hch := builtSM_chained pm regs
  refine ⟨?_, ?_, ?_, ?_, ?_⟩
  · intro i j hij hj
    exact chainedFrom_getD _ _ _ hch i j hij hj
  · intro i j hij hj
    have h1 := chainedFrom_getD _ _ _ hch i j hij hj
    have hmemi : (builtSM pm regs).source_files.getD i dfltFile ∈
        (builtSM pm regs).source_files := by
      rw [List.getD_eq_getElem _ _ (by omega : i < _)]
      exact List.getElem_mem _
    have h2 := chainedFrom_mem _ _ _ hch _ hmemi
    omega
  · intro f hf
    have := chainedFrom_mem _ _ _ hch f hf
    omega
  · intro hne
    have hlen : 0 < (builtSM pm regs).source_files.length := by
      have h1 := registerAll_length (SourceMap.new pm) regs
      have hr : 0 < regs.length := List.length_pos.mpr hne
      have h0 : (SourceMap.new pm).source_files.length = 0 := rfl
      unfold builtSM
      omega
    rcases hcase : (builtSM pm regs).source_files with _ | ⟨f, rest⟩
    · rw [hcase] at hlen; simp at hlen
    · rw [hcase] at hch
      exact hch.1
  · intro sm n s
    cases n <;>
      simp [SourceMap.newSourceFile, SourceFile.new]

/-- Witness for C4 on a concrete two-file registration (a two-byte file and an
empty file). -/
theorem claim4_witness :
    (((builtSM FilePathMapping.empty
        [(.anon, str "ab"), (.anon, [])]).source_files.getD 0
          dfltFile).end_pos + 1 ≤
      ((builtSM FilePathMapping.empty
        [(.anon, str "ab"), (.anon, [])]).source_files.getD 1
          dfltFile).start_pos) ∧
    (((builtSM FilePathMapping.empty
        [(.anon, str "ab"), (.anon, [])]).source_files.getD 0
          dfltFile).start_pos ≠
      ((builtSM FilePathMapping.empty
        [(.anon, str "ab"), (.anon, [])]).source_files.getD 1
          dfltFile).start_pos) ∧
    (((builtSM FilePathMapping.empty
        [(.anon, str "ab"), (.anon, [])]).source_files.getD 0
          dfltFile).start_pos = 1) := by
  have h := claim4_theorem FilePathMapping.empty [(.anon, str "ab"), (.anon, [])]
  exact ⟨h.1 0 1 (by omega) (by decide), h.2.1 0 1 (by omega) (by decide),
    h.2.2.2.1 (by decide)⟩

-- ---------------------------------------------------------------------------
-- Claim C3
-- ---------------------------------------------------------------------------

instance {e a : Type} [DecidableEq e] [DecidableEq a] :
    DecidableEq (Except e a) := fun x y =>
  match x, y with
  | .error u, .error v =>
    match decEq u v with
    | isTrue h => isTrue (by rw [h])
    | isFalse h => isFalse fun hh => h (by injection hh)
  | .error _, .ok _ => isFalse fun hh => Except.noConfusion hh
  | .ok _, .error _ => isFalse fun hh => Except.noConfusion hh
  | .ok u, .ok v =>
    match decEq u v with
    | isTrue h => isTrue (by rw [h])
    | isFalse h => isFalse fun hh => h (by injection hh)

/-- The concrete map refuting C3 as stated: one two-byte file covering
`[1, 3)`; position 100 lies outside every file's range. -/
def c3SM : SourceMap :=
  builtSM FilePathMapping.empty [(.anon, str "ab")]

/-- C3 counterexample: 100 is outside the `[start_pos, end_pos)` range of
every registered file, yet `try_lookup_source_file` succeeds instead of
failing with `NoFileFor`. -/
theorem claim3_counterexample :
    (∀ f ∈ c3SM.source_files, ¬(f.start_pos ≤ 100 ∧ 100 < f.end_pos)) ∧
    c3SM.tryLookupSourceFile 100 ≠ .error (.NoFileFor 100) ∧
    (c3SM.tryLookupSourceFile 100).map (fun f => f.start_pos) = .ok 1 := by
  decide

theorem lookupSourceFileIn_isSome (files : List SourceFile) (pos : Nat)
    (h0 : pos ≠ 0) (hne : files ≠ []) :
    lookupSourceFileIn files pos =
      some (files.getD (lsfLoop files pos 0 files.length) dfltFile) := by
  unfold lookupSourceFileIn
  have hd : bytePosIsDummy pos = false := by simp [bytePosIsDummy, h0]
  rw [hd]
  simp only [Bool.false_eq_true, if_false]
  have hlen : 0 < files.length := List.length_pos.mpr hne
  have hb := lsfLoop_bounds files pos 0 files.length hlen
  rw [if_neg (by omega)]

theorem tryLookupSourceFile_error_shape (sm : SourceMap) (pos : Nat)
    (e : SourceMapLookupError)
    (h : sm.tryLookupSourceFile pos = .error e) : e = .NoFileFor pos := by
  unfold SourceMap.tryLookupSourceFile at h
  rcases hl : lookupSourceFileIn sm.source_files pos with _ | f
  · rw [hl] at h
    injection h with h
    exact h.symm
  · rw [hl] at h
    exact absurd h (by simp)

/-- C3 (amended): the lookup fails with `NoFileFor(pos)` exactly when `pos` is
the dummy position or no file at all is registered; a non-dummy position
outside every file's range still resolves to some file. -/
theorem claim3_theorem (sm : SourceMap) (pos : Nat) :
    (sm.tryLookupSourceFile pos = .error (.NoFileFor pos) ↔
      pos = 0 ∨ sm.source_files = []) ∧
    (sm.tryLookupByteOffset pos = .error (.NoFileFor pos) ↔
      pos = 0 ∨ sm.source_files = []) := by
  have hmain : sm.tryLookupSourceFile pos = .error (.NoFileFor pos) ↔
      pos = 0 ∨ sm.source_files = [] := by
    by_cases h0 : pos = 0
    · subst h0
      simp [SourceMap.tryLookupSourceFile, lookupSourceFileIn, bytePosIsDummy]
    · cases hf : sm.source_files with
      | nil =>
        have hnone : lookupSourceFileIn [] pos = none := by
          unfold lookupSourceFileIn
          have hd : bytePosIsDummy pos = false := by simp [bytePosIsDummy, h0]
          rw [hd]
          simp [lsfLoop, lsfGo]
        simp [SourceMap.tryLookupSourceFile, hf, hnone, h0]
      | cons f rest =>
        have hsome := lookupSourceFileIn_isSome sm.source_files pos h0
          (by rw [hf]; simp)
        rw [hf] at hsome
        simp [SourceMap.tryLookupSourceFile, hf, hsome, h0]
  refine ⟨hmain, ?_⟩
  rcases hcase : sm.tryLookupSourceFile pos with e | f
  · have he := tryLookupSourceFile_error_shape sm pos e hcase
    subst he
    have hbo : sm.tryLookupByteOffset pos = .error (.NoFileFor pos) := by
      unfold SourceMap.tryLookupByteOffset
      rw [hcase]
      rfl
    rw [hbo]
    exact ⟨fun _ => hmain.mp hcase, fun _ => rfl⟩
  · have hbo : sm.tryLookupByteOffset pos = .ok ⟨f, pos - f.start_pos⟩ := by
      unfold SourceMap.tryLookupByteOffset
      rw [hcase]
      rfl
    rw [hbo]
    constructor
    · intro h
      exact absurd h (by simp)
    · intro h
      exact absurd (hmain.mpr h) (by rw [hcase]; simp)

-- ---------------------------------------------------------------------------
-- Claim C5
-- ---------------------------------------------------------------------------

theorem utf8Take_full (l : List Nat) : utf8Take l (byteLen l) = l := by
  induction l with
  | nil => rfl
  | cons c rest ih =>
    have h1 : 1 ≤ utf8Size c := by
      unfold utf8Size; split <;> [skip; split <;> [skip; split]] <;> omega
    have hb : byteLen (c :: rest) = utf8Size c + byteLen rest := by
      simp [byteLen]
    rw [hb]
    obtain ⟨n, hn⟩ : ∃ n, utf8Size c + byteLen rest = n + 1 :=
      ⟨utf8Size c + byteLen rest - 1, by omega⟩
    rw [hn]
    show (if utf8Size c ≤ n + 1 then c :: utf8Take rest (n + 1 - utf8Size c)
      else []) = c :: rest
    rw [if_pos (by omega)]
    have hr : n + 1 - utf8Size c = byteLen rest := by omega
    rw [hr, ih]

theorem utf8Slice_full (l : List Nat) : utf8Slice l 0 (byteLen l) = l := by
  unfold utf8Slice utf8Drop
  simpa using utf8Take_full l

/-- For a map built by registrations: any position inside (or just past) the
file resolves to that file. -/
theorem builtSM_lookup (pm : FilePathMapping) (regs : List (FileName × List Nat))
    (i pos : Nat) (hi : i < (builtSM pm regs).source_files.length)
    (h1 : ((builtSM pm regs).source_files.getD i dfltFile).start_pos ≤ pos)
    (h2 : pos ≤ ((builtSM pm regs).source_files.getD i dfltFile).end_pos) :
    (builtSM pm regs).tryLookupSourceFile pos =
      .ok ((builtSM pm regs).source_files.getD i dfltFile) := by
  have hch := builtSM_chained pm regs
  have hsorted := chainedFrom_pairwise _ _ _ hch
  have hmemi : (builtSM pm regs).source_files.getD i dfltFile ∈
      (builtSM pm regs).source_files := by
    rw [List.getD_eq_getElem _ _ hi]
    exact List.getElem_mem _
  have hmem := chainedFrom_mem _ _ _ hch _ hmemi
  have hnext : i + 1 < (builtSM pm regs).source_files.length →
      pos < ((builtSM pm regs).source_files.getD (i + 1) dfltFile).start_pos := by
    intro hlt
    have := chainedFrom_getD _ _ _ hch i (i + 1) (by omega) hlt
    omega
  have hpos : pos ≠ 0 := by omega
  have := lookupSourceFileIn_eq (builtSM pm regs).source_files pos i hsorted
    hi h1 hnext hpos
  unfold SourceMap.tryLookupSourceFile
  rw [this]

/-- C5: for every registered file `f`,
`span_to_snippet(Span(f.start_pos, f.end_pos))` succeeds and returns exactly
the file's full source text. -/
theorem claim5_theorem (pm : FilePathMapping)
    (regs : List (FileName × List Nat)) (f : SourceFile)
    (hf : f ∈ (builtSM pm regs).source_files) :
    (builtSM pm regs).spanToSnippet ⟨f.start_pos, f.end_pos⟩ = .ok f.src := by
  have hch := builtSM_chained pm regs
  have hmem := chainedFrom_mem _ _ _ hch f hf
  obtain ⟨i, hi, hgi⟩ := List.mem_iff_getElem.mp hf
  have hgd : (builtSM pm regs).source_files.getD i dfltFile = f := by
    rw [List.getD_eq_getElem _ _ hi, hgi]
  have hlo : (builtSM pm regs).tryLookupSourceFile f.start_pos = .ok f := by
    have := builtSM_lookup pm regs i f.start_pos hi (by rw [hgd])
      (by rw [hgd]; omega)
    rwa [hgd] at this
  have hhi : (builtSM pm regs).tryLookupSourceFile f.end_pos = .ok f := by
    have := builtSM_lookup pm regs i f.end_pos hi (by rw [hgd]; omega)
      (by rw [hgd])
    rwa [hgd] at this
  have hbo1 : (builtSM pm regs).tryLookupByteOffset f.start_pos =
      .ok ⟨f, f.start_pos - f.start_pos⟩ := by
    unfold SourceMap.tryLookupByteOffset
    rw [hlo]
    rfl
  have hbo2 : (builtSM pm regs).tryLookupByteOffset f.end_pos =
      .ok ⟨f, f.end_pos - f.start_pos⟩ := by
    unfold SourceMap.tryLookupByteOffset
    rw [hhi]
    rfl
  have hns : ¬(f.end_pos < f.start_pos) := by omega
  have hd1 : bytePosIsDummy f.start_pos = false := by
    simp only [bytePosIsDummy, beq_eq_false_iff_ne, ne_eq]
    omega
  have hd2 : bytePosIsDummy f.end_pos = false := by
    simp only [bytePosIsDummy, beq_eq_false_iff_ne, ne_eq]
    omega
  have hmf : ¬(f.end_pos - f.start_pos < f.start_pos - f.start_pos ∨
      f.end_pos - f.start_pos < f.end_pos - f.start_pos) := by omega
  simp only [SourceMap.spanToSnippet, SourceMap.spanToSource, hns, hd1, hd2,
    Bool.or_self, Bool.false_eq_true, if_false, hbo1, hbo2, ne_eq,
    not_true_eq_false, hmf]
  have hz : f.start_pos - f.start_pos = 0 := by omega
  have hlen2 : f.end_pos - f.start_pos = byteLen f.src := by omega
  rw [hz, hlen2, utf8Slice_full]

/-- Witness for C5 on the file `"ab\ncd"` of a concrete two-file map. -/
theorem claim5_witness :
    (builtSM FilePathMapping.empty
        [(.anon, str "ab\ncd"), (.anon, str "xy")]).spanToSnippet
      ⟨((builtSM FilePathMapping.empty
          [(.anon, str "ab\ncd"), (.anon, str "xy")]).source_files.getD 0
            dfltFile).start_pos,
       ((builtSM FilePathMapping.empty
          [(.anon, str "ab\ncd"), (.anon, str "xy")]).source_files.getD 0
            dfltFile).end_pos⟩ =
      .ok ((builtSM FilePathMapping.empty
          [(.anon, str "ab\ncd"), (.anon, str "xy")]).source_files.getD 0
            dfltFile).src :=
  claim5_theorem FilePathMapping.empty [(.anon, str "ab\ncd"), (.anon, str "xy")]
    _ (by decide)

-- ---------------------------------------------------------------------------
-- Claim C2
-- ---------------------------------------------------------------------------

/-- The concrete map refuting C2 as stated: two ASCII files `"ab"` (positions
`[1, 3)`) and `"cd"` (positions `[4, 6)`). -/
def c2SM : SourceMap :=
  builtSM FilePathMapping.empty [(.anon, str "ab"), (.anon, str "cd")]

/-- C2 counterexample: the spans `(1, 2)` and `(4, 5)` live in different
files, yet `merge_spans` merges them (both positions are on line index 0 of
their respective files), and the resulting span `(1, 5)` lies in no single
file — refuting both the "same file" clause of the iff and the merge law. -/
theorem claim2_counterexample :
    c2SM.mergeSpans ⟨1, 2⟩ ⟨4, 5⟩ = .ok (some ⟨1, 5⟩) ∧
    (c2SM.tryLookupSourceFile 2).map (fun f => f.start_pos) = .ok 1 ∧
    (c2SM.tryLookupSourceFile 4).map (fun f => f.start_pos) = .ok 4 ∧
    (∀ f ∈ c2SM.source_files, ¬(f.start_pos ≤ 1 ∧ 5 ≤ f.end_pos)) := by
  decide

/-- C2 (amended): `merge_spans(lhs, rhs)` returns `Some(u)` iff the line
lookups of `lhs.hi` and `rhs.lo` both succeed, the two zero-based line numbers
(each within its own file) are equal, `lhs.lo ≤ rhs.lo`, and
`lhs.hi ≤ rhs.lo`; the two endpoints need not lie in the same file.  Whenever
it returns `Some(u)`, `u.lo = lhs.lo` and `u.hi = max(lhs.hi, rhs.hi)`; `u`
need not lie in a single file. -/
theorem claim2_theorem (sm : SourceMap) (sp_lhs sp_rhs u : Span) :
    sm.mergeSpans sp_lhs sp_rhs = .ok (some u) ↔
      ∃ x1 x2 : SourceFileAndLine,
        sm.lookupLine sp_lhs.hi = .ok (.ok x1) ∧
        sm.lookupLine sp_rhs.lo = .ok (.ok x2) ∧
        x1.line = x2.line ∧ sp_lhs.lo ≤ sp_rhs.lo ∧ sp_lhs.hi ≤ sp_rhs.lo ∧
        u = ⟨sp_lhs.lo, max sp_lhs.hi sp_rhs.hi⟩ := by
  unfold SourceMap.mergeSpans
  rcases hc1 : sm.lookupLine sp_lhs.hi with e1 | r1
  · simp only [bind, Except.bind]
    constructor
    · intro h
      exact absurd h (by simp)
    · rintro ⟨x1, x2, h1, _⟩
      exact absurd h1 (by simp)
  · cases r1 with
    | error fempty =>
      simp only [bind, Except.bind]
      constructor
      · intro h
        exact absurd h (by simp [pure, Except.pure])
      · rintro ⟨x1, x2, h1, _⟩
        exact absurd h1 (by simp)
    | ok x1 =>
      rcases hc2 : sm.lookupLine sp_rhs.lo with e2 | r2
      · simp only [bind, Except.bind]
        constructor
        · intro h
          exact absurd h (by simp)
        · rintro ⟨y1, y2, h1, h2, _⟩
          exact absurd h2 (by simp)
      · cases r2 with
        | error fempty =>
          simp only [bind, Except.bind]
          constructor
          · intro h
            exact absurd h (by simp [pure, Except.pure])
          · rintro ⟨y1, y2, h1, h2, _⟩
            exact absurd h2 (by simp)
        | ok x2 =>
          simp only [bind, Except.bind]
          by_cases hline : x1.line ≠ x2.line
          · rw [if_pos hline]
            constructor
            · intro h
              exact absurd h (by simp [pure, Except.pure])
            · rintro ⟨y1, y2, h1, h2, h3, _⟩
              injection h1 with h1
              injection h2 with h2
              injection h1 with h1
              injection h2 with h2
              subst h1
              subst h2
              exact absurd h3 hline
          · rw [if_neg hline]
            by_cases hord : sp_lhs.lo ≤ sp_rhs.lo ∧ sp_lhs.hi ≤ sp_rhs.lo
            · rw [if_pos hord]
              have hto : sp_lhs.to sp_rhs =
                  ⟨sp_lhs.lo, max sp_lhs.hi sp_rhs.hi⟩ := by
                unfold Span.to
                rw [Nat.min_eq_left hord.1]
              constructor
              · intro h
                simp only [pure, Except.pure, Except.ok.injEq,
                  Option.some.injEq] at h
                refine ⟨x1, x2, rfl, rfl, by omega, hord.1, hord.2, ?_⟩
                rw [← h, hto]
              · rintro ⟨y1, y2, h1, h2, h3, h4, h5, h6⟩
                rw [hto, h6]
                rfl
            · rw [if_neg hord]
              constructor
              · intro h
                exact absurd h (by simp [pure, Except.pure])
              · rintro ⟨y1, y2, h1, h2, h3, h4, h5, h6⟩
                exact absurd ⟨h4, h5⟩ hord

-- ---------------------------------------------------------------------------
-- Claim C6
-- ---------------------------------------------------------------------------

/-- The map exhibiting the span-adjuster bug: the single ASCII file
`"ab cd"` at positions `[1, 6)`. -/
def c6SM : SourceMap :=
  builtSM FilePathMapping.empty [(.anon, str "ab cd")]

def c6File : SourceFile := c6SM.source_files.getD 0 dfltFile

/-- C6 evaluated at the failing input: with `c = 'x'` (code 120) absent from
the searched region, `span_extend_to_next_char` nevertheless extends the span
`(1, 3)` to `(1, 6)` (the whole trimmed remainder), and `span_until_char`
shrinks `(1, 4)` to `(1, 3)` (dropping the trailing space) — both contradict
the claim and the functions' own doc comments
("Return the same span if no character could be found"). -/
theorem claim6_theorem :
    c6SM.spanExtendToNextChar ⟨1, 3⟩ 120 = ⟨1, 6⟩ ∧
    (utf8Drop c6File.src 2).contains 120 = false ∧
    c6SM.spanUntilChar ⟨1, 4⟩ 120 = ⟨1, 3⟩ ∧
    (utf8Slice c6File.src 0 3).contains 120 = false := by
  decide

-- ---------------------------------------------------------------------------
-- Claim C9
-- ---------------------------------------------------------------------------

/-- The three-file scenario of the specification (and of the repository's own
tests `t3`/`t5`): `blork.rs`, an empty `empty.rs`, and `blork2.rs`. -/
def initSM : SourceMap :=
  builtSM FilePathMapping.empty
    [(.real ["blork.rs"], str "first line.\nsecond line"),
     (.real ["empty.rs"], []),
     (.real ["blork2.rs"], str "first line.\nsecond line")]

/-- C9: the lookup results of the concrete scenario — byte offsets at
positions 24/25/26 and char positions at 23/26. -/
theorem claim9_theorem :
    (initSM.source_files.getD 0 dfltFile).start_pos = 1 ∧
    (initSM.tryLookupByteOffset 24).map (fun r => (r.sf.name, r.pos)) =
      .ok (.real ["blork.rs"], 23) ∧
    (initSM.tryLookupByteOffset 25).map (fun r => (r.sf.name, r.pos)) =
      .ok (.real ["empty.rs"], 0) ∧
    (initSM.tryLookupByteOffset 26).map (fun r => (r.sf.name, r.pos)) =
      .ok (.real ["blork2.rs"], 0) ∧
    (initSM.tryLookupCharPos 23).map (fun l => (l.file.name, l.line, l.col)) =
      .ok (.real ["blork.rs"], 2, 10) ∧
    (initSM.tryLookupCharPos 26).map (fun l => (l.file.name, l.line, l.col)) =
      .ok (.real ["blork2.rs"], 1, 0) := by
  decide

-- ---------------------------------------------------------------------------
-- Claim C10
-- ---------------------------------------------------------------------------

theorem idxGet_idxInsert (m : List (StableSourceFileId × SourceFile))
    (k : StableSourceFileId) (v : SourceFile) :
    idxGet (idxInsert m k v) k = some v := by
  simp [idxGet, idxInsert, List.find?]

theorem idxInsert_count (m : List (StableSourceFileId × SourceFile))
    (k : StableSourceFileId) (v : SourceFile) :
    (idxInsert m k v).countP (fun e => e.1 == k) = 1 := by
  unfold idxInsert
  rw [List.countP_cons]
  have hz : (m.filter fun e => e.1 ≠ k).countP (fun e => e.1 == k) = 0 := by
    rw [List.countP_eq_zero]
    intro e he
    have := (List.mem_filter.mp he).2
    simp only [ne_eq, decide_eq_true_eq] at this
    simpa using this
  simp [hz]

/-- C10: registering two files whose stable identity inputs (remapped name,
`was_remapped` flag, unmapped path) agree — for example two registrations of
the same path — leaves both files in the files vector with distinct
`start_pos`, while the stable-id index entry is overwritten, not duplicated:
`source_file_by_stable_id` returns the most recently registered file and the
index holds exactly one entry for the id. -/
theorem claim10_theorem (sm : SourceMap) (n1 n2 : FileName) (s1 s2 : List Nat)
    (hid : StableSourceFileId.new (sm.newSourceFile n1 s1).2 =
      StableSourceFileId.new
        ((sm.newSourceFile n1 s1).1.newSourceFile n2 s2).2) :
    ((sm.newSourceFile n1 s1).1.newSourceFile n2 s2).1.source_files =
      sm.source_files ++
        [(sm.newSourceFile n1 s1).2,
         ((sm.newSourceFile n1 s1).1.newSourceFile n2 s2).2] ∧
    (sm.newSourceFile n1 s1).2.start_pos ≠
      ((sm.newSourceFile n1 s1).1.newSourceFile n2 s2).2.start_pos ∧
    ((sm.newSourceFile n1 s1).1.newSourceFile n2 s2).1.sourceFileByStableId
        (StableSourceFileId.new (sm.newSourceFile n1 s1).2) =
      some ((sm.newSourceFile n1 s1).1.newSourceFile n2 s2).2 ∧
    List.countP
      (fun e => e.1 == StableSourceFileId.new (sm.newSourceFile n1 s1).2)
      ((sm.newSourceFile n1 s1).1.newSourceFile n2 s2).1.stable_id_to_source_file =
      1 := by
  refine ⟨?_, ?_, ?_, ?_⟩
  · show (sm.source_files ++ [(sm.newSourceFile n1 s1).2]) ++
        [((sm.newSourceFile n1 s1).1.newSourceFile n2 s2).2] = _
    rw [List.append_assoc]
    rfl
  · have e1 : (sm.newSourceFile n1 s1).2.start_pos = sm.start_pos := rfl
    have e2 : ((sm.newSourceFile n1 s1).1.newSourceFile n2 s2).2.start_pos =
        sm.start_pos + byteLen (removeBom s1) + 1 := rfl
    omega
  · show idxGet _ _ = _
    rw [hid]
    exact idxGet_idxInsert _ _ _
  · show (idxInsert _ _ _).countP _ = 1
    rw [hid]
    exact idxInsert_count _ _ _

/-- Witness for C10: registering `blork.rs` twice on a fresh map. -/
theorem claim10_witness :
    (((SourceMap.new FilePathMapping.empty).newSourceFile
          (.real ["blork.rs"]) (str "ab")).1.newSourceFile
        (.real ["blork.rs"]) (str "cde")).1.source_files =
      ((SourceMap.new FilePathMapping.empty).source_files ++
        [((SourceMap.new FilePathMapping.empty).newSourceFile
            (.real ["blork.rs"]) (str "ab")).2,
         (((SourceMap.new FilePathMapping.empty).newSourceFile
              (.real ["blork.rs"]) (str "ab")).1.newSourceFile
            (.real ["blork.rs"]) (str "cde")).2]) ∧
    ((SourceMap.new FilePathMapping.empty).newSourceFile
        (.real ["blork.rs"]) (str "ab")).2.start_pos ≠
      (((SourceMap.new FilePathMapping.empty).newSourceFile
          (.real ["blork.rs"]) (str "ab")).1.newSourceFile
        (.real ["blork.rs"]) (str "cde")).2.start_pos ∧
    (((SourceMap.new FilePathMapping.empty).newSourceFile
          (.real ["blork.rs"]) (str "ab")).1.newSourceFile
        (.real ["blork.rs"]) (str "cde")).1.sourceFileByStableId
      (StableSourceFileId.new
        (((SourceMap.new FilePathMapping.empty).newSourceFile
          (.real ["blork.rs"]) (str "ab")).2)) =
      some ((((SourceMap.new FilePathMapping.empty).newSourceFile
          (.real ["blork.rs"]) (str "ab")).1.newSourceFile
        (.real ["blork.rs"]) (str "cde")).2) := by
  have h := claim10_theorem (SourceMap.new FilePathMapping.empty)
    (.real ["blork.rs"]) (.real ["blork.rs"]) (str "ab") (str "cde")
    (by decide)
  exact ⟨h.1, h.2.1, h.2.2.1⟩

-- ---------------------------------------------------------------------------
-- Claim C8
-- ---------------------------------------------------------------------------

/-- A single registered file for the emitter scenario. -/
def sm8 : SourceMap :=
  builtSM FilePathMapping.empty [(.custom "input.js", str "abc")]

/-- The generation config of the scenario: default behaviour everywhere, with
`emit_columns` fixed to the given flag. -/
def cfg8 (ec : Bool) : SourceMapGenConfig :=
  ⟨fun n => n, fun _ => none, defaultInlineSourcesContent, fun _ => ec,
   defaultSkip, defaultIgnoreList⟩

/-- C8: with a single registered file (`[1, 4)` here) and two mappings both on
generated line 0, emitting with `emit_columns = false` produces exactly one
mapping record for that generated line, and emitting with
`emit_columns = true` produces two. -/
theorem claim8_theorem (p1 p2 c1 c2 : Nat) (h11 : 1 ≤ p1) (h12 : p1 ≤ 3)
    (h21 : 1 ≤ p2) (h22 : p2 ≤ 3) :
    (buildSourceMap sm8 [(p1, ⟨0, c1⟩), (p2, ⟨0, c2⟩)] true (cfg8 false)).map
        (fun b => b.tokens.map fun t => t.dst_line) = .ok [0] ∧
    (buildSourceMap sm8 [(p1, ⟨0, c1⟩), (p2, ⟨0, c2⟩)] true (cfg8 true)).map
        (fun b => b.tokens.map fun t => t.dst_line) = .ok [0, 0] := by
  interval_cases p1 <;> interval_cases p2 <;>
    rcases c1 with _ | c1 <;> rcases c2 with _ | c2 <;> exact ⟨rfl, rfl⟩

/-- Witness for C8 at source positions 1 and 2, generated columns 0 and 7. -/
theorem claim8_witness :
    (buildSourceMap sm8 [(1, ⟨0, 0⟩), (2, ⟨0, 7⟩)] true (cfg8 false)).map
        (fun b => b.tokens.map fun t => t.dst_line) = .ok [0] ∧
    (buildSourceMap sm8 [(1, ⟨0, 0⟩), (2, ⟨0, 7⟩)] true (cfg8 true)).map
        (fun b => b.tokens.map fun t => t.dst_line) = .ok [0, 0] :=
  claim8_theorem 1 2 0 7 (by decide) (by decide) (by decide) (by decide)

end Swc
